import Mathlib

/-!
Verification of the `librosa` effects module (`librosa/effects.py`):
harmonic/percussive separation, time stretching, pitch shifting, and
interval remixing with optional zero-crossing alignment.

Audio samples are embedded as exact rationals (`ℚ`); a buffer is either
1-D (mono) or 2-D (a list of equal-length channels), mirroring the
`np.ndarray` shapes `(n,)` and `(channels, n)` used by the source.
Python slice and `np.concatenate` semantics are embedded explicitly.
External collaborators (STFT/ISTFT, HPSS decomposition, phase vocoder,
resampling) are abstracted as a `Services` record, since the source
treats them as black boxes.  Helpers of the library that live outside
`effects.py` (`to_mono`, `zero_crossings`, `match_events`, `fix_length`,
`valid_audio`) are modelled from their specified contracts.
-/

namespace Librosa

/-- An audio buffer: 1-D mono signal of shape `(n,)`, or 2-D multi-channel of
shape `(channels, n)` (`remix` accepts `shape=(t,)` or `(2, t)` buffers). -/
inductive AudioBuffer where
  | mono : List ℚ → AudioBuffer
  | multi : List (List ℚ) → AudioBuffer
deriving DecidableEq

/-- Length of the time axis (the final axis of the buffer). -/
def timeLength : AudioBuffer → ℕ
  | .mono x => x.length
  | .multi chs => (chs.headD []).length

/-- Number of channels (a 1-D buffer counts as one channel). -/
def numChannels : AudioBuffer → ℕ
  | .mono _ => 1
  | .multi chs => chs.length

/-- Modelled from the spec: `librosa.util.valid_audio` (outside `effects.py`)
raises on invalid shape/dtype/NaN; a buffer must be finite-valued, real, and
1-D or 2-D.  Finiteness and realness are structural for `ℚ` samples; a 2-D
buffer of shape `(channels, n)` has at least one channel and rectangular
(equal-length) channel rows, which `np.ndarray` guarantees structurally. -/
def validAudio : AudioBuffer → Bool
  | .mono _ => true
  | .multi chs => !chs.isEmpty && chs.all (fun c => c.length == (chs.headD []).length)

/-- Modelled from the spec: `librosa.core.to_mono` (outside `effects.py`) is a
simple channel-average downmix; a mono buffer is returned unchanged. -/
def to_mono : AudioBuffer → List ℚ
  | .mono x => x
  | .multi chs =>
      (List.range (chs.headD []).length).map
        (fun i => (chs.map (fun c => c.getD i 0)).sum / (chs.length : ℚ))

/-- Sign of a sample: `1`, `-1`, or `0`. -/
def sgn (x : ℚ) : Int := if 0 < x then 1 else if x < 0 then -1 else 0

/-- Modelled from the spec: `librosa.core.zero_crossings` (outside
`effects.py`) marks the sample indices `i` such that
`sign(x[i]) != sign(x[i-1])` (a sign change, inclusive of transitions through
exact zero); `remix` takes `np.nonzero` of that boolean mask, yielding a
strictly increasing, duplicate-free index list, empty only when the signal
never changes sign. -/
def zeroCrossingSet (x : List ℚ) : List ℕ :=
  (List.range x.length).filter
    (fun i => decide (1 ≤ i) && decide (sgn (x.getD i 0) ≠ sgn (x.getD (i - 1) 0)))

/-- Distance `|a - b|` on naturals. -/
def natDist (a b : ℕ) : ℕ := (a - b) + (b - a)

/-- Modelled from the spec: `librosa.util.match_events` (outside `effects.py`)
maps a query `q` over a non-empty sorted candidate list `C` to
`argmin` over `c` in `C` of `|c - q|`, breaking exact-distance ties towards
the smaller candidate.  This definition returns the matched candidate value
(`remix` immediately indexes `zeros` with the matched position, so the value
level is what the caller observes).  The `[]` case is unreachable: matching
against an empty candidate list fails, which `snapInterval` models. -/
def nearestEvent (q : ℕ) : List ℕ → ℕ
  | [] => 0
  | [c] => c
  | a :: b :: rest =>
      if natDist q a ≤ natDist q (nearestEvent q (b :: rest)) then a
      else nearestEvent q (b :: rest)

/-- Error message for matching against an empty candidate list (modelled from
the spec: a descriptive error is raised rather than attempting a match
against an empty set). -/
def emptyMatchMsg : String := "attempting to match events against an empty candidate list"

/-- Error message of `librosa.util.valid_audio` for an invalid buffer. -/
def invalidAudioMsg : String := "data must be a valid audio buffer"

/-- `np.concatenate` raises this on an empty array list. -/
def concatEmptyMsg : String := "need at least one array to concatenate"

/-- Snap one interval: `zeros[match_events(interval, zeros)]` in the source.
Both boundaries are matched independently; matching fails when the candidate
list is empty. -/
def snapInterval (zeros : List ℕ) (iv : ℕ × ℕ) : Except String (ℕ × ℕ) :=
  if zeros.isEmpty then .error emptyMatchMsg
  else .ok (nearestEvent iv.1 zeros, nearestEvent iv.2 zeros)

/-- Python slice `xs[s:e]` for natural bounds: end-exclusive, out-of-range
bounds clamped by the slicing mechanism itself, as in Python/NumPy. -/
def pySlice (xs : List ℚ) (s e : ℕ) : List ℚ := (xs.take e).drop s

/-- `y[..., s:e]`: slice the final (time) axis, preserving leading axes (the
source builds `clip = [Ellipsis] * y.ndim` and sets `clip[-1]`). -/
def sliceBuf : AudioBuffer → ℕ → ℕ → AudioBuffer
  | .mono x, s, e => .mono (pySlice x s e)
  | .multi chs, s, e => .multi (chs.map (fun c => pySlice c s e))

/-- Concatenation of two same-shaped buffers along the final (time) axis.
All buffers concatenated by `remix` are slices of one and the same input
buffer, so the mixed-shape case never arises there (it is given an arbitrary
value). -/
def appendBuf : AudioBuffer → AudioBuffer → AudioBuffer
  | .mono a, .mono b => .mono (a ++ b)
  | .multi a, .multi b => .multi (List.zipWith (· ++ ·) a b)
  | a, _ => a

/-- `np.concatenate(y_out, axis=-1)`: raises on an empty list of arrays. -/
def concatTime : List AudioBuffer → Except String AudioBuffer
  | [] => .error concatEmptyMsg
  | b :: bs => .ok (bs.foldl appendBuf b)

/-- The slice-collecting loop of `remix`: for each interval in input order,
optionally snap both boundaries to the nearest zero-crossing, then slice. -/
def remixSlices (y : AudioBuffer) (zeros : List ℕ) (align_zeros : Bool) :
    List (ℕ × ℕ) → Except String (List AudioBuffer)
  | [] => .ok []
  | iv :: rest =>
    if align_zeros then
      match snapInterval zeros iv with
      | .error e => .error e
      | .ok iv2 =>
        match remixSlices y zeros align_zeros rest with
        | .error e => .error e
        | .ok out => .ok (sliceBuf y iv2.1 iv2.2 :: out)
    else
      match remixSlices y zeros align_zeros rest with
      | .error e => .error e
      | .ok out => .ok (sliceBuf y iv.1 iv.2 :: out)

/-- `librosa.effects.remix(y, intervals, align_zeros)`: validate the buffer,
compute the zero-crossing set of the mono downmix once per call (the source
computes it only under `align_zeros`; it is pure, so hoisting it is
value-preserving), slice every interval in input order (snapping boundaries
when aligning), and concatenate along the time axis. -/
def remix (y : AudioBuffer) (intervals : List (ℕ × ℕ)) (align_zeros : Bool) :
    Except String AudioBuffer :=
  if validAudio y then
    match remixSlices y (zeroCrossingSet (to_mono y)) align_zeros intervals with
    | .error e => .error e
    | .ok out => concatTime out
  else .error invalidAudioMsg

/-- A `remix` call with the `align_zeros` argument omitted: the source header
`def remix(y, intervals, align_zeros=True)` substitutes the default `True`. -/
def remixDefaultAlign (y : AudioBuffer) (intervals : List (ℕ × ℕ)) :
    Except String AudioBuffer :=
  remix y intervals true

/-- The spec-side description of unaligned remixing: the end-exclusive slices
of every interval, concatenated channelwise in input order.  Stated
separately from `remix` so the two can be compared. -/
def remixJoin (y : AudioBuffer) (ivs : List (ℕ × ℕ)) : AudioBuffer :=
  match y with
  | .mono x => .mono ((ivs.map (fun iv => pySlice x iv.1 iv.2)).flatten)
  | .multi chs =>
      .multi (chs.map (fun c => (ivs.map (fun iv => pySlice c iv.1 iv.2)).flatten))

/-- External collaborators of the effect pipelines: STFT/ISTFT transform,
HPSS decomposition, phase vocoder and resampling, abstracted over an opaque
spectrogram type `S`.  The source delegates all of these to the surrounding
library and only orchestrates them. -/
structure Services (S : Type) where
  stft : List ℚ → S
  istft : S → List ℚ
  hpssD : S → S × S
  phase_vocoder : S → ℝ → S
  resample : List ℚ → ℝ → ℝ → List ℚ

/-- Modelled from the spec: `librosa.util.fix_length` (outside `effects.py`)
truncates or zero-pads the time axis to exactly the target length. -/
def fix_length (x : List ℚ) (n : ℕ) : List ℚ :=
  x.take n ++ List.replicate (n - x.length) 0

/-- `librosa.effects.hpss`: STFT, HPSS decomposition, two inverse STFTs, each
fixed to the input length. -/
def hpss {S : Type} (sv : Services S) (y : List ℚ) : List ℚ × List ℚ :=
  let D := sv.stft y
  let hp := sv.hpssD D
  (fix_length (sv.istft hp.1) y.length, fix_length (sv.istft hp.2) y.length)

/-- `librosa.effects.harmonic`: STFT, keep the harmonic component of the
decomposition, inverse STFT, fix to the input length. -/
def harmonic {S : Type} (sv : Services S) (y : List ℚ) : List ℚ :=
  fix_length (sv.istft (sv.hpssD (sv.stft y)).1) y.length

/-- `librosa.effects.percussive`: STFT, keep the percussive component of the
decomposition, inverse STFT, fix to the input length. -/
def percussive {S : Type} (sv : Services S) (y : List ℚ) : List ℚ :=
  fix_length (sv.istft (sv.hpssD (sv.stft y)).2) y.length

/-- `librosa.effects.time_stretch`: STFT, phase vocoder at the given rate,
inverse STFT.  The source performs no validation of `rate`. -/
def time_stretch {S : Type} (sv : Services S) (y : List ℚ) (rate : ℝ) : List ℚ :=
  sv.istft (sv.phase_vocoder (sv.stft y) rate)

/-- `librosa.effects.pitch_shift`: derive `rate = 2 ** (-n_steps /
bins_per_octave)`, time-stretch by `rate`, resample from `sr / rate` back to
`sr`, and fix to the input length.  The float arithmetic of the source is
modelled exactly over `ℝ`. -/
noncomputable def pitch_shift {S : Type} (sv : Services S) (y : List ℚ)
    (sr n_steps bins_per_octave : ℝ) : List ℚ :=
  let rate : ℝ := 2 ^ (-n_steps / bins_per_octave)
  fix_length (sv.resample (time_stretch sv y rate) (sr / rate) sr) y.length

/-- A concrete instantiation of the external services (spectrograms are raw
sample lists; every service is a pass-through), used to evaluate the
orchestration layer on concrete inputs. -/
def svId : Services (List ℚ) := ⟨id, id, fun s => (s, s), fun s _ => s, fun x _ _ => x⟩

/-- Signal whose only sign changes are at indices 3 and 7. -/
def sigZC : List ℚ := [1, 1, 1, -1, -1, -1, -1, 1, 1, 1]

/-- A six-sample ramp buffer. -/
def buf6 : AudioBuffer := .mono [0, 1, 2, 3, 4, 5]

/-- A constant signal: no zero-crossings at all. -/
def qconst3 : List ℚ := [1, 1, 1]

instance : DecidableEq (Except String AudioBuffer) := fun a b =>
  match a, b with
  | .error e, .error f => decidable_of_iff (e = f) (by rw [Except.error.injEq])
  | .ok x, .ok y => decidable_of_iff (x = y) (by rw [Except.ok.injEq])
  | .error _, .ok _ => isFalse (fun h => Except.noConfusion h)
  | .ok _, .error _ => isFalse (fun h => Except.noConfusion h)

/-! ### Helper lemmas -/

theorem nearestEvent_mem (q : ℕ) : ∀ C : List ℕ, C ≠ [] → nearestEvent q C ∈ C
  | [], h => absurd rfl h
  | [c], _ => by simp [nearestEvent]
  | a :: b :: rest, _ => by
    by_cases h : natDist q a ≤ natDist q (nearestEvent q (b :: rest))
    · simp [nearestEvent, h]
    · simp only [nearestEvent, if_neg h]
      exact List.mem_cons_of_mem a (nearestEvent_mem q (b :: rest) (by simp))

theorem nearestEvent_min (q : ℕ) : ∀ C : List ℕ, ∀ c ∈ C,
    natDist q (nearestEvent q C) ≤ natDist q c
  | [c0], c, hc => by
    simp only [List.mem_singleton] at hc
    subst hc; simp [nearestEvent]
  | a :: b :: rest, c, hc => by
    rcases List.mem_cons.mp hc with rfl | hc2
    · by_cases h : natDist q c ≤ natDist q (nearestEvent q (b :: rest))
      · simp [nearestEvent, h]
      · simp only [nearestEvent, if_neg h]
        omega
    · have ih := nearestEvent_min q (b :: rest) c hc2
      by_cases h : natDist q a ≤ natDist q (nearestEvent q (b :: rest))
      · simp only [nearestEvent, if_pos h]
        exact le_trans h ih
      · simpa only [nearestEvent, if_neg h] using ih

theorem nearestEvent_tie_smaller (q : ℕ) : ∀ C : List ℕ, List.Sorted (· ≤ ·) C →
    ∀ c ∈ C, natDist q c = natDist q (nearestEvent q C) → nearestEvent q C ≤ c
  | [c0], _, c, hc, _ => by
    simp only [List.mem_singleton] at hc
    subst hc; simp [nearestEvent]
  | a :: b :: rest, hs, c, hc, he => by
    have hs2 : List.Sorted (· ≤ ·) (b :: rest) := (List.sorted_cons.mp hs).2
    have ha : ∀ x ∈ b :: rest, a ≤ x := (List.sorted_cons.mp hs).1
    by_cases h : natDist q a ≤ natDist q (nearestEvent q (b :: rest))
    · simp only [nearestEvent, if_pos h]
      rcases List.mem_cons.mp hc with rfl | hc2
      · exact le_refl c
      · exact ha c hc2
    · simp only [nearestEvent, if_neg h] at he ⊢
      rcases List.mem_cons.mp hc with rfl | hc2
      · omega
      · exact nearestEvent_tie_smaller q (b :: rest) hs2 c hc2 he

theorem fix_length_length (x : List ℚ) (n : ℕ) : (fix_length x n).length = n := by
  simp only [fix_length, List.length_append, List.length_take, List.length_replicate]
  omega

/-! ### Claims -/

/-- C3: the nearest-event match used by `remix` alignment returns, for a
query `q` and a non-empty sorted candidate list `C`, an element of `C` whose
distance to `q` is minimal among all candidates; when two candidates are
exactly equidistant from `q`, the smaller candidate is selected. -/
theorem match_events_nearest (q : ℕ) (C : List ℕ) (hne : C ≠ [])
    (hs : List.Sorted (· ≤ ·) C) :
    nearestEvent q C ∈ C ∧
    (∀ c ∈ C, natDist q (nearestEvent q C) ≤ natDist q c) ∧
    (∀ c ∈ C, natDist q c = natDist q (nearestEvent q C) → nearestEvent q C ≤ c) :=
  ⟨nearestEvent_mem q C hne, fun c hc => nearestEvent_min q C c hc,
    fun c hc he => nearestEvent_tie_smaller q C hs c hc he⟩

/-- C3 witness: the candidate set `[0, 10, 20]` with queries `5`, `15`, `21`;
ties at distance five break to the smaller candidate. -/
theorem match_events_nearest_witness :
    (([0, 10, 20] : List ℕ) ≠ []) ∧ List.Sorted (· ≤ ·) ([0, 10, 20] : List ℕ) ∧
    nearestEvent 5 [0, 10, 20] ∈ ([0, 10, 20] : List ℕ) ∧
    nearestEvent 5 [0, 10, 20] = 0 ∧
    nearestEvent 15 [0, 10, 20] = 10 ∧
    nearestEvent 21 [0, 10, 20] = 20 :=
  ⟨by decide, by decide, (match_events_nearest 5 [0, 10, 20] (by decide) (by decide)).1,
    by decide, by decide, by decide⟩

/-- C6: both outputs of `hpss` have exactly the time-axis length of the
input, for every input and every behaviour of the external transform and
decomposition services, because each inverse transform is passed through
`fix_length` with target `len(y)`. -/
theorem hpss_output_lengths {S : Type} (sv : Services S) (y : List ℚ) :
    (hpss sv y).1.length = y.length ∧ (hpss sv y).2.length = y.length :=
  ⟨fix_length_length _ _, fix_length_length _ _⟩

/-- C7: the single-component pipelines compute exactly the components of the
combined pipeline: `harmonic` equals the first output of `hpss` and
`percussive` equals the second, for every input and every behaviour of the
external services. -/
theorem harmonic_percussive_eq_hpss {S : Type} (sv : Services S) (y : List ℚ) :
    harmonic sv y = (hpss sv y).1 ∧ percussive sv y = (hpss sv y).2 :=
  ⟨rfl, rfl⟩

/-- C8: `pitch_shift` derives `rate = 2 ** (-n_steps / bins_per_octave)`
(fractional and negative values allowed), time-stretches by that rate,
resamples the result from `sr / rate` back to `sr`, and length-fixes the
output to exactly the input length; in particular the returned buffer always
has the same length as the input. -/
theorem pitch_shift_spec {S : Type} (sv : Services S) (y : List ℚ)
    (sr n_steps bins_per_octave : ℝ) :
    pitch_shift sv y sr n_steps bins_per_octave =
      fix_length
        (sv.resample (time_stretch sv y ((2 : ℝ) ^ (-n_steps / bins_per_octave)))
          (sr / (2 : ℝ) ^ (-n_steps / bins_per_octave)) sr)
        y.length ∧
    (pitch_shift sv y sr n_steps bins_per_octave).length = y.length :=
  ⟨rfl, fix_length_length _ _⟩

/-- C9 corrected form: `time_stretch` performs no validation of `rate`; even
a non-positive rate is passed unchecked to the external phase vocoder and the
pipeline returns its inverse transform normally — no error is raised by this
layer. -/
theorem time_stretch_no_rate_check {S : Type} (sv : Services S) (y : List ℚ)
    (rate : ℝ) (_hr : rate ≤ 0) :
    time_stretch sv y rate = sv.istft (sv.phase_vocoder (sv.stft y) rate) := rfl

/-- C9 witness: rate `-1` is accepted and flows through the pipeline. -/
theorem time_stretch_no_rate_check_witness :
    ((-1 : ℝ) ≤ 0) ∧
    time_stretch svId [1, 2] (-1) =
      svId.istft (svId.phase_vocoder (svId.stft [1, 2]) (-1)) :=
  ⟨by norm_num, time_stretch_no_rate_check svId [1, 2] (-1) (by norm_num)⟩

/-- C9 counterexample to the claim as stated: with concrete pass-through
services, `time_stretch` at the non-positive rate `-1` returns an ordinary
buffer; the source contains no rate check and raises no usage error before
or instead of running the pipeline. -/
theorem time_stretch_negative_rate_returns :
    time_stretch svId [1, 2] (-1) = [1, 2] := rfl

/-- C10: calling `remix` with the `align_zeros` argument omitted substitutes
the source default `align_zeros=True`, hence behaves identically to an
explicit `align_zeros=True` call. -/
theorem remix_default_is_align (y : AudioBuffer) (ivs : List (ℕ × ℕ)) :
    remixDefaultAlign y ivs = remix y ivs true := rfl

/-! ### Remix machinery lemmas -/

theorem remix_eq_concat (y : AudioBuffer) (ivs : List (ℕ × ℕ)) (az : Bool)
    (hv : validAudio y = true) :
    remix y ivs az =
      match remixSlices y (zeroCrossingSet (to_mono y)) az ivs with
      | .error e => .error e
      | .ok out => concatTime out := by
  simp [remix, hv]

theorem remixSlices_noalign (y : AudioBuffer) (zeros : List ℕ) :
    ∀ ivs : List (ℕ × ℕ),
      remixSlices y zeros false ivs = .ok (ivs.map (fun iv => sliceBuf y iv.1 iv.2))
  | [] => rfl
  | iv :: rest => by
    simp [remixSlices, remixSlices_noalign y zeros rest]

theorem remixSlices_align (y : AudioBuffer) (zeros : List ℕ) (hz : zeros ≠ []) :
    ∀ ivs : List (ℕ × ℕ),
      remixSlices y zeros true ivs =
        .ok (ivs.map (fun iv =>
          sliceBuf y (nearestEvent iv.1 zeros) (nearestEvent iv.2 zeros)))
  | [] => rfl
  | iv :: rest => by
    have hz2 : zeros.isEmpty = false := by
      cases zeros with
      | nil => exact absurd rfl hz
      | cons a l => rfl
    simp [remixSlices, snapInterval, hz2, remixSlices_align y zeros hz rest]

theorem foldl_appendBuf_mono (x : List ℚ) :
    ∀ (ivs : List (ℕ × ℕ)) (acc : List ℚ),
      (ivs.map (fun iv => AudioBuffer.mono (pySlice x iv.1 iv.2))).foldl appendBuf
          (.mono acc)
        = .mono (acc ++ (ivs.map (fun iv => pySlice x iv.1 iv.2)).flatten)
  | [], acc => by simp
  | iv :: rest, acc => by
    simp only [List.map_cons, List.foldl_cons, appendBuf, List.flatten_cons]
    rw [foldl_appendBuf_mono x rest (acc ++ pySlice x iv.1 iv.2)]
    simp [List.append_assoc]

theorem zipWith_left_of_le : ∀ (A B : List (List ℚ)), A.length ≤ B.length →
    List.zipWith (fun a _ => a) A B = A
  | [], _, _ => rfl
  | _ :: _, [], h => by simp at h
  | a :: A, b :: B, h => by
    simp only [List.zipWith_cons_cons]
    rw [zipWith_left_of_le A B (by simpa using h)]

theorem zipWith_zipWith_same (F G : List ℚ → List ℚ → List ℚ) :
    ∀ A C : List (List ℚ),
      List.zipWith F (List.zipWith G A C) C = List.zipWith (fun a c => F (G a c) c) A C
  | [], _ => rfl
  | _ :: _, [] => rfl
  | a :: A, c :: C => by
    simp only [List.zipWith_cons_cons]
    rw [zipWith_zipWith_same F G A C]

theorem zipWith_map_left_same (f2 : List ℚ → List ℚ → List ℚ)
    (g : List ℚ → List ℚ) :
    ∀ chs : List (List ℚ),
      List.zipWith f2 (chs.map g) chs = chs.map (fun c => f2 (g c) c)
  | [] => rfl
  | c :: chs => by
    simp only [List.map_cons, List.zipWith_cons_cons]
    rw [zipWith_map_left_same f2 g chs]

theorem zipWith_congr_fun (F G : List ℚ → List ℚ → List ℚ)
    (h : ∀ a c, F a c = G a c) :
    ∀ A C : List (List ℚ), List.zipWith F A C = List.zipWith G A C
  | [], _ => rfl
  | _ :: _, [] => rfl
  | a :: A, c :: C => by
    simp only [List.zipWith_cons_cons, h]
    rw [zipWith_congr_fun F G h A C]

theorem foldl_slices_multi (chs : List (List ℚ)) :
    ∀ (ivs : List (ℕ × ℕ)) (acc : List (List ℚ)), acc.length = chs.length →
      (ivs.map (fun iv =>
          AudioBuffer.multi (chs.map (fun c => pySlice c iv.1 iv.2)))).foldl
          appendBuf (.multi acc)
        = .multi (List.zipWith
            (fun a c => a ++ (ivs.map (fun iv => pySlice c iv.1 iv.2)).flatten) acc chs)
  | [], acc, h => by
    simp only [List.map_nil, List.foldl_nil, List.flatten_nil, List.append_nil]
    rw [zipWith_left_of_le acc chs (le_of_eq h)]
  | iv :: rest, acc, h => by
    simp only [List.map_cons, List.foldl_cons, appendBuf, List.flatten_cons]
    rw [foldl_slices_multi chs rest
      (List.zipWith (· ++ ·) acc (chs.map fun c => pySlice c iv.1 iv.2))
      (by simp [List.length_zipWith]; omega)]
    congr 1
    rw [List.zipWith_map_right, zipWith_zipWith_same]
    exact zipWith_congr_fun _ _ (fun a c => by simp [List.append_assoc]) acc chs

theorem concat_slices_eq (y : AudioBuffer) (iv0 : ℕ × ℕ) (rest : List (ℕ × ℕ)) :
    concatTime ((iv0 :: rest).map (fun iv => sliceBuf y iv.1 iv.2))
      = .ok (remixJoin y (iv0 :: rest)) := by
  cases y with
  | mono x =>
    simp only [List.map_cons, sliceBuf, concatTime, remixJoin, List.flatten_cons]
    rw [foldl_appendBuf_mono x rest (pySlice x iv0.1 iv0.2)]
  | multi chs =>
    simp only [List.map_cons, sliceBuf, concatTime, remixJoin, List.flatten_cons]
    rw [foldl_slices_multi chs rest (chs.map fun c => pySlice c iv0.1 iv0.2) (by simp)]
    rw [zipWith_map_left_same]

theorem valid_multi_ne (chs : List (List ℚ))
    (hv : validAudio (.multi chs) = true) : chs ≠ [] := by
  intro h
  subst h
  simp [validAudio] at hv

theorem valid_channels_length (chs : List (List ℚ))
    (hv : validAudio (.multi chs) = true) :
    ∀ c ∈ chs, c.length = timeLength (.multi chs) := by
  intro c hc
  simp only [validAudio, Bool.and_eq_true, List.all_eq_true] at hv
  have h2 := hv.2 c hc
  simpa [timeLength] using h2

theorem take_clamp (x : List ℚ) (e : ℕ) : x.take e = x.take (min e x.length) := by
  rcases le_total e x.length with h | h
  · rw [min_eq_left h]
  · rw [min_eq_right h, List.take_of_length_le h, List.take_length]

theorem pySlice_clamp (x : List ℚ) (s e : ℕ) :
    pySlice x s e = pySlice x (min s x.length) (min e x.length) := by
  unfold pySlice
  rw [← take_clamp]
  rcases le_total s x.length with h | h
  · rw [min_eq_left h]
  · rw [min_eq_right h]
    have h1 : (x.take e).length ≤ x.length := by
      simp only [List.length_take]
      omega
    rw [List.drop_eq_nil_of_le (le_trans h1 h), List.drop_eq_nil_of_le h1]

theorem pySlice_length (x : List ℚ) (s e : ℕ) :
    (pySlice x s e).length = min e x.length - s := by
  simp [pySlice, List.length_take]

theorem sum_slice_lengths (x : List ℚ) :
    ∀ ivs : List (ℕ × ℕ), (∀ iv ∈ ivs, iv.1 ≤ iv.2 ∧ iv.2 ≤ x.length) →
      ((ivs.map (fun iv => pySlice x iv.1 iv.2)).map List.length).sum
        = (ivs.map (fun iv => iv.2 - iv.1)).sum
  | [], _ => rfl
  | iv :: rest, h => by
    simp only [List.map_cons, List.sum_cons]
    rw [sum_slice_lengths x rest (fun i hi => h i (List.mem_cons_of_mem iv hi))]
    have h0 := h iv (List.mem_cons_self iv rest)
    have h1 := pySlice_length x iv.1 iv.2
    omega

/-- C1 corrected form: with `align_zeros=True` on a valid buffer whose mono
downmix has at least one zero-crossing, `remix` computes the zero-crossing
set once from the mono downmix, replaces each interval boundary
independently with the nearest zero-crossing (ties to the smaller
candidate), and returns the concatenation of the snapped slices.  For a
signal whose only zero-crossings are at indices 3 and 7, the boundary 5 of
`(0, 5)` is equidistant from both and therefore snaps to 3, so the call
yields the empty slice `signal[3:3]`, not `signal[3:7]`. -/
theorem remix_align_spec (y : AudioBuffer) (ivs : List (ℕ × ℕ))
    (hv : validAudio y = true) (hz : zeroCrossingSet (to_mono y) ≠ []) :
    remix y ivs true =
      concatTime (ivs.map (fun iv =>
        sliceBuf y (nearestEvent iv.1 (zeroCrossingSet (to_mono y)))
          (nearestEvent iv.2 (zeroCrossingSet (to_mono y))))) := by
  rw [remix_eq_concat y ivs true hv,
    remixSlices_align y (zeroCrossingSet (to_mono y)) hz ivs]

/-- C1 witness: the signal with sign changes exactly at indices 3 and 7. -/
theorem remix_align_spec_witness :
    validAudio (.mono sigZC) = true ∧
    zeroCrossingSet (to_mono (.mono sigZC)) ≠ [] ∧
    remix (.mono sigZC) [(0, 5)] true =
      concatTime ([(0, 5)].map (fun iv =>
        sliceBuf (.mono sigZC)
          (nearestEvent iv.1 (zeroCrossingSet (to_mono (.mono sigZC))))
          (nearestEvent iv.2 (zeroCrossingSet (to_mono (.mono sigZC)))))) ∧
    zeroCrossingSet (to_mono (.mono sigZC)) = [3, 7] ∧
    remix (.mono sigZC) [(0, 5)] true = .ok (.mono []) :=
  ⟨by decide, by decide,
    remix_align_spec (.mono sigZC) [(0, 5)] (by decide) (by decide),
    by decide, by decide⟩

/-- C1 counterexample to the claim as stated: on the signal whose only
zero-crossings are at 3 and 7, `remix(signal, [(0, 5)], align_zeros=True)`
returns the empty buffer (5 ties between 3 and 7 and snaps to the smaller
candidate 3), which differs from `signal[3:7]`. -/
theorem remix_align_example_cex :
    remix (.mono sigZC) [(0, 5)] true = .ok (.mono []) ∧
    AudioBuffer.mono ([] : List ℚ) ≠ .mono (pySlice sigZC 3 7) :=
  ⟨by decide, by decide⟩

/-- C2 corrected form: for a valid buffer and a non-empty list of intervals
each inside `[0, n]` with `start ≤ end`, unaligned `remix` returns exactly
the end-exclusive slices concatenated along the time axis in input order
(not sorted, not deduplicated), preserving the channel count, with total
length the sum of the interval lengths. -/
theorem remix_noalign_spec (y : AudioBuffer) (ivs : List (ℕ × ℕ))
    (hv : validAudio y = true) (hne : ivs ≠ [])
    (hin : ∀ iv ∈ ivs, iv.1 ≤ iv.2 ∧ iv.2 ≤ timeLength y) :
    remix y ivs false = .ok (remixJoin y ivs) ∧
    numChannels (remixJoin y ivs) = numChannels y ∧
    timeLength (remixJoin y ivs) = (ivs.map (fun iv => iv.2 - iv.1)).sum := by
  obtain ⟨iv0, rest, rfl⟩ : ∃ a l, ivs = a :: l := by
    cases ivs with
    | nil => exact absurd rfl hne
    | cons a l => exact ⟨a, l, rfl⟩
  refine ⟨?_, ?_, ?_⟩
  · rw [remix_eq_concat y _ false hv,
      remixSlices_noalign y (zeroCrossingSet (to_mono y)) (iv0 :: rest)]
    exact concat_slices_eq y iv0 rest
  · cases y with
    | mono x => simp [remixJoin, numChannels]
    | multi chs => simp [remixJoin, numChannels]
  · cases y with
    | mono x =>
      simp only [remixJoin, timeLength, List.length_flatten]
      exact sum_slice_lengths x (iv0 :: rest) (by simpa [timeLength] using hin)
    | multi chs =>
      obtain ⟨c0, cs, rfl⟩ : ∃ c cs, chs = c :: cs := by
        cases chs with
        | nil => exact absurd rfl (valid_multi_ne [] hv)
        | cons c cs => exact ⟨c, cs, rfl⟩
      simp only [remixJoin, List.map_cons, timeLength, List.headD_cons,
        List.length_flatten]
      exact sum_slice_lengths c0 (iv0 :: rest)
        (by simpa [timeLength, List.headD_cons] using hin)

/-- C2 witness: the ramp buffer with in-range intervals, in both orders. -/
theorem remix_noalign_spec_witness :
    validAudio buf6 = true ∧
    (([(0, 2), (4, 6)] : List (ℕ × ℕ)) ≠ []) ∧
    (∀ iv ∈ ([(0, 2), (4, 6)] : List (ℕ × ℕ)), iv.1 ≤ iv.2 ∧ iv.2 ≤ timeLength buf6) ∧
    (remix buf6 [(0, 2), (4, 6)] false = .ok (remixJoin buf6 [(0, 2), (4, 6)]) ∧
      numChannels (remixJoin buf6 [(0, 2), (4, 6)]) = numChannels buf6 ∧
      timeLength (remixJoin buf6 [(0, 2), (4, 6)]) =
        (([(0, 2), (4, 6)] : List (ℕ × ℕ)).map (fun iv => iv.2 - iv.1)).sum) ∧
    remix buf6 [(0, 2), (4, 6)] false = .ok (.mono [0, 1, 4, 5]) ∧
    remix buf6 [(4, 6), (0, 2)] false = .ok (.mono [4, 5, 0, 1]) :=
  ⟨by decide, by decide, by decide,
    remix_noalign_spec buf6 [(0, 2), (4, 6)] (by decide) (by decide) (by decide),
    by decide, by decide⟩

/-- C2 counterexample to the claim as stated over arbitrary interval lists:
the empty interval list makes `np.concatenate` raise instead of returning a
concatenation, and an out-of-range interval is clamped by slicing, so the
total output length is not the sum of the supplied interval lengths. -/
theorem remix_noalign_cex :
    remix buf6 [] false = .error concatEmptyMsg ∧
    remix buf6 [(0, 2), (4, 100)] false = .ok (.mono [0, 1, 4, 5]) ∧
    timeLength (.mono ([0, 1, 4, 5] : List ℚ)) ≠
      (([(0, 2), (4, 100)] : List (ℕ × ℕ)).map (fun iv => iv.2 - iv.1)).sum :=
  ⟨by decide, by decide, by decide⟩

/-- C4: with `align_zeros=True`, a valid buffer whose mono downmix has no
zero-crossings makes `remix` fail with the descriptive empty-candidate error
on any non-empty interval list; no partial result is returned. -/
theorem remix_align_no_crossings (y : AudioBuffer) (iv : ℕ × ℕ)
    (rest : List (ℕ × ℕ)) (hv : validAudio y = true)
    (hz : zeroCrossingSet (to_mono y) = []) :
    remix y (iv :: rest) true = .error emptyMatchMsg := by
  rw [remix_eq_concat y _ true hv]
  simp [remixSlices, snapInterval, hz]

/-- C4 witness: a constant signal has no zero-crossings. -/
theorem remix_align_no_crossings_witness :
    validAudio (.mono qconst3) = true ∧
    zeroCrossingSet (to_mono (.mono qconst3)) = [] ∧
    remix (.mono qconst3) [(0, 2)] true = .error emptyMatchMsg :=
  ⟨by decide, by decide,
    remix_align_no_crossings (.mono qconst3) (0, 2) [] (by decide) (by decide)⟩

/-- C5 corrected form: `remix` passes interval bounds to the slicing
mechanism unchanged — it performs no bounds check of its own — and the
underlying slicing silently clamps out-of-range bounds to `[0, n]` and
returns the clamped slice; no error is surfaced. -/
theorem remix_slice_clamp (y : AudioBuffer) (s e : ℕ)
    (hv : validAudio y = true) :
    remix y [(s, e)] false = .ok (sliceBuf y s e) ∧
    sliceBuf y s e = sliceBuf y (min s (timeLength y)) (min e (timeLength y)) := by
  constructor
  · rw [remix_eq_concat y _ false hv,
      remixSlices_noalign y (zeroCrossingSet (to_mono y)) [(s, e)]]
    rfl
  · cases y with
    | mono x => simpa [sliceBuf, timeLength] using pySlice_clamp x s e
    | multi chs =>
      simp only [sliceBuf, AudioBuffer.multi.injEq]
      apply List.map_congr_left
      intro c hc
      rw [pySlice_clamp c s e, valid_channels_length chs hv c hc]

/-- C5 witness: slicing the six-sample ramp with the out-of-range interval
`(2, 100)` silently clamps to `(2, 6)`. -/
theorem remix_slice_clamp_witness :
    validAudio buf6 = true ∧
    remix buf6 [(2, 100)] false = .ok (sliceBuf buf6 2 100) ∧
    sliceBuf buf6 2 100 =
      sliceBuf buf6 (min 2 (timeLength buf6)) (min 100 (timeLength buf6)) ∧
    remix buf6 [(2, 100)] false = .ok (.mono [2, 3, 4, 5]) :=
  ⟨by decide, (remix_slice_clamp buf6 2 100 (by decide)).1,
    (remix_slice_clamp buf6 2 100 (by decide)).2, by decide⟩

/-- C5 counterexample to the claim as stated: an interval reaching past the
end of the buffer produces a successful, silently clamped result — equal to
the slice at the clamped bounds — rather than surfacing an error. -/
theorem remix_outofrange_no_error :
    remix buf6 [(2, 100)] false = .ok (.mono [2, 3, 4, 5]) ∧
    AudioBuffer.mono ([2, 3, 4, 5] : List ℚ) =
      sliceBuf buf6 (min 2 (timeLength buf6)) (min 100 (timeLength buf6)) :=
  ⟨by decide, by decide⟩

end Librosa
